import Mathlib

/-!
Verification of the flux-mcp structured text-editing engine.

This file gives a shallow embedding, in Lean 4, of the core data
structures and algorithms of the repository (transaction manager, LRU
byte cache, mapped-file line index, CPU literal search, regex splice
loop, indentation validation gate, re-encoding call sites, fuzzy
recovery, and the string-scanner target finder), together with theorems
settling the specification claims about them.

Python strings are modelled as `List Char`, byte strings as `List Nat`
(a newline byte is `10`).  Python dictionaries that the code only ever
reads through `get`/item iteration are modelled as association lists in
insertion order; the single-process filesystem is a function from paths
to optional byte contents.  Floating-point similarity scores are
modelled as rationals: the code only compares them against constant
thresholds, never does arithmetic that could make the approximation
visible.
-/

namespace Flux

/-- Whitespace characters relevant to leading indentation: space and tab.
The embedded texts are single lines (no terminators), and the code paths
modelled here only ever strip spaces and tabs in practice. -/
def isWsChar (c : Char) : Bool := c = ' ' || c = '\t'

/-- Leading whitespace of a line, as in `line[:len(line) - len(line.lstrip())]`. -/
def leadingWs (l : List Char) : List Char := l.takeWhile isWsChar

/-- `line.lstrip()`. -/
def stripLeft (l : List Char) : List Char := l.dropWhile isWsChar

/-- Truthiness of `line.strip()`: the line has at least one non-whitespace
character. -/
def hasContent (l : List Char) : Bool := l.any (fun c => !(isWsChar c))

theorem leadingWs_append_stripLeft (l : List Char) :
    leadingWs l ++ stripLeft l = l :=
  List.takeWhile_append_dropWhile (p := isWsChar) (l := l)

/-- `str.splitlines()` restricted to `\n` terminators (the replace pipeline
normalises line endings before these code paths run): pieces between
newlines, with no empty piece after a trailing newline. -/
def splitNl : List Char → List (List Char)
  | [] => []
  | c :: rest =>
    if c = '\n' then [] :: splitNl rest
    else
      match splitNl rest with
      | [] => [[c]]
      | l :: ls => (c :: l) :: ls

theorem splitNl_nil_iff (l : List Char) : splitNl l = [] ↔ l = [] := by
  constructor
  · intro h
    cases l with
    | nil => rfl
    | cons c rest =>
      simp only [splitNl] at h
      split at h
      · simp at h
      · split at h <;> simp_all
  · intro h; subst h; rfl

/-- Number of newline characters in a text. -/
def countNl (l : List Char) : Nat := l.countP (fun c => c = '\n')

theorem splitNl_cons_nl (rest : List Char) :
    splitNl ('\n' :: rest) = [] :: splitNl rest := by
  simp [splitNl]

theorem splitNl_cons_other (c : Char) (rest : List Char) (hc : ¬ c = '\n') :
    splitNl (c :: rest) =
      match splitNl rest with
      | [] => [[c]]
      | l :: ls => (c :: l) :: ls := by
  simp only [splitNl, if_neg hc]

theorem countNl_cons_nl (rest : List Char) :
    countNl ('\n' :: rest) = countNl rest + 1 := by
  simp [countNl, List.countP_cons]

theorem countNl_cons_other (c : Char) (rest : List Char) (hc : ¬ c = '\n') :
    countNl (c :: rest) = countNl rest := by
  simp [countNl, List.countP_cons, hc]

theorem length_eq_sum_splitNl (l : List Char) :
    l.length = ((splitNl l).map List.length).sum + countNl l := by
  induction l with
  | nil => rfl
  | cons c rest ih =>
    by_cases hc : c = '\n'
    · subst hc
      rw [countNl_cons_nl]
      simp [splitNl]
      omega
    · rw [countNl_cons_other c rest hc]
      simp only [splitNl, if_neg hc, List.length_cons]
      rcases hsp : splitNl rest with _ | ⟨p, ps⟩
      · have : rest = [] := (splitNl_nil_iff rest).mp hsp
        subst this
        simp [countNl]
      · rw [hsp] at ih
        simp only [List.map_cons, List.sum_cons, List.length_cons] at ih ⊢
        omega

theorem splitNl_length_le (l : List Char) :
    (splitNl l).length ≤ countNl l + 1 := by
  induction l with
  | nil => simp [splitNl, countNl]
  | cons c rest ih =>
    by_cases hc : c = '\n'
    · subst hc
      rw [countNl_cons_nl]
      simp [splitNl]
      omega
    · rw [countNl_cons_other c rest hc]
      simp only [splitNl, if_neg hc]
      rcases hsp : splitNl rest with _ | ⟨p, ps⟩
      · simp
      · rw [hsp] at ih
        simp only [List.length_cons] at ih ⊢
        omega

theorem countNl_eq_splitNl_length_of_last_nl (l : List Char)
    (h : l.getLast? = some '\n') :
    countNl l = (splitNl l).length := by
  induction l with
  | nil => simp at h
  | cons c rest ih =>
    rcases rest with _ | ⟨d, rest2⟩
    · simp only [List.getLast?_singleton, Option.some_inj] at h
      subst h
      rfl
    · have hrest : (d :: rest2).getLast? = some '\n' := by
        rw [List.getLast?_cons_cons] at h
        exact h
      have ih2 := ih hrest
      by_cases hc : c = '\n'
      · subst hc
        rw [countNl_cons_nl, splitNl_cons_nl]
        simp only [List.length_cons]
        omega
      · rw [countNl_cons_other c _ hc, splitNl_cons_other c _ hc]
        rcases hsp : splitNl (d :: rest2) with _ | ⟨p, ps⟩
        · exact absurd ((splitNl_nil_iff _).mp hsp) (by simp)
        · rw [hsp] at ih2
          simp only [List.length_cons] at ih2 ⊢
          omega

end Flux

namespace Flux.SearchEngine

/-!
Embedding of `SearchEngine._search_cpu` (src/flux_mcp/operations/search_engine.py,
lines 109-170), literal (non-regex) branch: per line, repeatedly call
`line.find(pattern, start)` and resume from `pos + 1` after each hit.
-/

/-- Helper for `str.find`: scan the suffixes of `l`, returning the index of
the first position at which `pat` occurs. -/
def pyFindAux (pat : List Char) : List Char → Nat → Option Nat
  | [], i => if pat = [] then some i else none
  | l@(_ :: t), i => if pat.isPrefixOf l then some i else pyFindAux pat t (i + 1)

/-- `line.find(pat, start)`: index of the first occurrence of `pat` at or
after `start`, `none` for Python -1. -/
def pyFind (line pat : List Char) (start : Nat) : Option Nat :=
  if line.length < start then none else pyFindAux pat (line.drop start) start

/-- The while-loop of the literal CPU search on one line: collect a match
position, then resume the scan at `pos + 1` (the source resumes one
character after the match START, not after its end).  Fuel bounds the
iteration; `line.length + 1` is enough because `start` strictly grows. -/
def scanLoop (line pat : List Char) : Nat → Nat → List Nat
  | 0, _ => []
  | fuel + 1, start =>
    match pyFind line pat start with
    | none => []
    | some pos => pos :: scanLoop line pat fuel (pos + 1)

/-- All match columns the CPU literal search reports for one line. -/
def literalPositions (line pat : List Char) : List Nat :=
  scanLoop line pat (line.length + 1) 0

theorem pyFindAux_mono (pat suffix : List Char) (i q : Nat)
    (h : pyFindAux pat suffix i = some q) : i ≤ q := by
  induction suffix generalizing i with
  | nil =>
    simp only [pyFindAux] at h
    split at h <;> simp_all
  | cons c t ih =>
    simp only [pyFindAux] at h
    split at h
    · simp_all
    · have := ih (i + 1) h
      omega

theorem pyFindAux_le_of_occ (pat suffix : List Char) (i p : Nat)
    (hip : i ≤ p) (hocc : pat.isPrefixOf (suffix.drop (p - i)) = true)
    (hlen : p - i ≤ suffix.length) :
    ∃ q, pyFindAux pat suffix i = some q ∧ q ≤ p := by
  induction suffix generalizing i p with
  | nil =>
    simp only [List.drop_nil] at hocc
    have hpat : pat = [] := by
      cases pat with
      | nil => rfl
      | cons a b => simp [List.isPrefixOf] at hocc
    exact ⟨i, by simp [pyFindAux, hpat], hip⟩
  | cons c t ih =>
    by_cases hpre : pat.isPrefixOf (c :: t) = true
    · exact ⟨i, by simp [pyFindAux, hpre], hip⟩
    · have hne : p ≠ i := by
        intro he
        subst he
        simp only [Nat.sub_self, List.drop_zero] at hocc
        exact hpre hocc
      have hip2 : i + 1 ≤ p := by omega
      have hocc2 : pat.isPrefixOf (t.drop (p - (i + 1))) = true := by
        have : p - i = (p - (i + 1)) + 1 := by omega
        rw [this] at hocc
        simpa using hocc
      have hlen2 : p - (i + 1) ≤ t.length := by
        simp only [List.length_cons] at hlen
        omega
      obtain ⟨q, hq, hqp⟩ := ih (i + 1) p hip2 hocc2 hlen2
      exact ⟨q, by simp [pyFindAux, hpre, hq], hqp⟩

theorem pyFind_le_of_occ (line pat : List Char) (start p : Nat)
    (hsp : start ≤ p)
    (hocc : pat.isPrefixOf (line.drop p) = true)
    (hlen : p ≤ line.length) :
    ∃ q, pyFind line pat start = some q ∧ start ≤ q ∧ q ≤ p := by
  have hdrop : (line.drop start).drop (p - start) = line.drop p := by
    rw [List.drop_drop]
    congr 1
    omega
  have hlen2 : p - start ≤ (line.drop start).length := by
    simp only [List.length_drop]
    omega
  obtain ⟨q, hq, hqp⟩ :=
    pyFindAux_le_of_occ pat (line.drop start) start p hsp (by rw [hdrop]; exact hocc) hlen2
  refine ⟨q, ?_, pyFindAux_mono _ _ _ _ hq, hqp⟩
  simp only [pyFind, if_neg (by omega : ¬ line.length < start)]
  exact hq

theorem scanLoop_complete (line pat : List Char) (p : Nat)
    (hocc : pat.isPrefixOf (line.drop p) = true)
    (hlen : p ≤ line.length) :
    ∀ fuel start, start ≤ p → line.length + 1 ≤ fuel + start →
      p ∈ scanLoop line pat fuel start := by
  intro fuel
  induction fuel with
  | zero => intro start hsp hfuel; omega
  | succ n ih =>
    intro start hsp hfuel
    obtain ⟨q, hq, hsq, hqp⟩ := pyFind_le_of_occ line pat start p hsp hocc hlen
    simp only [scanLoop, hq]
    by_cases hqe : q = p
    · subst hqe; exact List.mem_cons_self _ _
    · have : p ∈ scanLoop line pat n (q + 1) := by
        apply ih (q + 1) (by omega) (by omega)
      exact List.mem_cons_of_mem _ this

end Flux.SearchEngine

namespace Flux.MemoryManager

/-!
Embedding of the LRU byte cache of `MemoryManager`
(src/flux_mcp/core/memory_manager.py, lines 152-177).  The
`OrderedDict` is an association list in insertion order, oldest entry
first; `cache_size` is carried alongside exactly as the code maintains
it.
-/

/-- One cache entry: key and held bytes. -/
abbrev Entry := String × List Nat

/-- `key in self.cache` / `self.cache[key]`: value of the first entry with
the given key. -/
def findVal (k : String) : List Entry → Option (List Nat)
  | [] => none
  | (a, b) :: es => if a = k then some b else findVal k es

/-- `self.cache.pop(key)`: drop the entry with the given key. -/
def popKey (k : String) : List Entry → List Entry
  | [] => []
  | (a, b) :: es => if a = k then es else (a, b) :: popKey k es

/-- Sum of the sizes of all held values. -/
def totalBytes (entries : List Entry) : Nat :=
  (entries.map (fun e => e.2.length)).sum

/-- Cache state: the ordered entries and the tracked `cache_size`. -/
structure CacheState where
  entries : List Entry
  size : Nat

/-- The eviction loop of `cache_put`: while the new value does not fit and
the cache is non-empty, pop the oldest entry (`popitem(last=False)`) and
subtract its size. -/
def evict (cap vlen : Nat) : List Entry → Nat → List Entry × Nat
  | [], sz => ([], sz)
  | e :: es, sz =>
    if cap < sz + vlen then evict cap vlen es (sz - e.2.length) else (e :: es, sz)

/-- `MemoryManager.cache_put` (lines 152-168): remove an existing entry for
the key, evict oldest entries while the value does not fit, then append
the new entry unconditionally. -/
def cachePut (cap : Nat) (k : String) (v : List Nat) (st : CacheState) : CacheState :=
  let afterPop :=
    match findVal k st.entries with
    | some old => CacheState.mk (popKey k st.entries) (st.size - old.length)
    | none => st
  let evicted := evict cap v.length afterPop.entries afterPop.size
  { entries := evicted.1 ++ [(k, v)], size := evicted.2 + v.length }

/-- `MemoryManager.cache_get` (lines 170-177): on a hit, pop the entry and
re-append it (move to most-recently-used); `cache_size` is untouched. -/
def cacheGet (k : String) (st : CacheState) : Option (List Nat) × CacheState :=
  match findVal k st.entries with
  | some v => (some v, { st with entries := popKey k st.entries ++ [(k, v)] })
  | none => (none, st)

/-- A client operation against the cache. -/
inductive CacheOp
  | put (k : String) (v : List Nat)
  | get (k : String)
deriving DecidableEq

/-- Run a sequence of cache operations. -/
def runOps (cap : Nat) : List CacheOp → CacheState → CacheState
  | [], st => st
  | CacheOp.put k v :: rest, st => runOps cap rest (cachePut cap k v st)
  | CacheOp.get k :: rest, st => runOps cap rest (cacheGet k st).2

/-- The cache as constructed: no entries, zero accounted size. -/
def emptyCache : CacheState := ⟨[], 0⟩

theorem totalBytes_append (l1 l2 : List Entry) :
    totalBytes (l1 ++ l2) = totalBytes l1 + totalBytes l2 := by
  simp [totalBytes]

theorem totalBytes_singleton (k : String) (v : List Nat) :
    totalBytes [(k, v)] = v.length := by
  simp [totalBytes]

theorem totalBytes_popKey_add (k : String) (entries : List Entry) (old : List Nat)
    (h : findVal k entries = some old) :
    totalBytes (popKey k entries) + old.length = totalBytes entries := by
  induction entries with
  | nil => simp [findVal] at h
  | cons e es ih =>
    obtain ⟨a, b⟩ := e
    by_cases ha : a = k
    · simp only [findVal, if_pos ha, Option.some_inj] at h
      subst h
      simp [popKey, ha, totalBytes, Nat.add_comm]
    · simp only [findVal, if_neg ha] at h
      simp only [popKey, if_neg ha, totalBytes, List.map_cons, List.sum_cons]
      have := ih h
      simp only [totalBytes] at this
      omega

theorem evict_spec (cap vlen : Nat) (entries : List Entry) (sz : Nat)
    (hwf : sz = totalBytes entries) :
    (evict cap vlen entries sz).2 = totalBytes (evict cap vlen entries sz).1
    ∧ ((evict cap vlen entries sz).1 = []
        ∨ (evict cap vlen entries sz).2 + vlen ≤ cap)
    ∧ ∃ m, (evict cap vlen entries sz).1 = entries.drop m := by
  induction entries generalizing sz with
  | nil =>
    subst hwf
    refine ⟨rfl, Or.inl rfl, 0, rfl⟩
  | cons e es ih =>
    by_cases hfit : cap < sz + vlen
    · have hwf2 : sz - e.2.length = totalBytes es := by
        subst hwf
        simp only [totalBytes, List.map_cons, List.sum_cons]
        omega
      have := ih (sz - e.2.length) hwf2
      simp only [evict, if_pos hfit]
      obtain ⟨h1, h2, m, h3⟩ := this
      exact ⟨h1, h2, m + 1, by simpa using h3⟩
    · simp only [evict, if_neg hfit]
      exact ⟨hwf, Or.inr (by omega), 0, rfl⟩

theorem evict_drops_oldest (cap vlen : Nat) :
    ∀ (entries : List Entry) (sz : Nat),
      ∃ m, (evict cap vlen entries sz).1 = entries.drop m := by
  intro entries
  induction entries with
  | nil => intro sz; exact ⟨0, rfl⟩
  | cons e es ih =>
    intro sz
    by_cases hfit : cap < sz + vlen
    · obtain ⟨m, hm⟩ := ih (sz - e.2.length)
      exact ⟨m + 1, by simpa [evict, hfit] using hm⟩
    · exact ⟨0, by simp [evict, hfit]⟩

theorem cachePut_wf (cap : Nat) (k : String) (v : List Nat) (st : CacheState)
    (hwf : st.size = totalBytes st.entries) :
    (cachePut cap k v st).size = totalBytes (cachePut cap k v st).entries := by
  unfold cachePut
  rcases hfv : findVal k st.entries with _ | old
  · simp only [hfv]
    have := evict_spec cap v.length st.entries st.size hwf
    rw [totalBytes_append, totalBytes_singleton]
    omega
  · simp only [hfv]
    have hpop := totalBytes_popKey_add k st.entries old hfv
    have hwf2 : st.size - old.length = totalBytes (popKey k st.entries) := by omega
    have := evict_spec cap v.length (popKey k st.entries) (st.size - old.length) hwf2
    rw [totalBytes_append, totalBytes_singleton]
    omega

theorem cachePut_bound (cap : Nat) (k : String) (v : List Nat) (st : CacheState)
    (hwf : st.size = totalBytes st.entries) (hv : v.length ≤ cap) :
    totalBytes (cachePut cap k v st).entries ≤ cap := by
  unfold cachePut
  rcases hfv : findVal k st.entries with _ | old
  · simp only [hfv]
    obtain ⟨h1, h2, _⟩ := evict_spec cap v.length st.entries st.size hwf
    rw [totalBytes_append, totalBytes_singleton]
    rcases h2 with he | hle
    · rw [he]
      simp only [totalBytes, List.map_nil, List.sum_nil]
      omega
    · omega
  · simp only [hfv]
    have hpop := totalBytes_popKey_add k st.entries old hfv
    have hwf2 : st.size - old.length = totalBytes (popKey k st.entries) := by omega
    obtain ⟨h1, h2, _⟩ := evict_spec cap v.length (popKey k st.entries)
      (st.size - old.length) hwf2
    rw [totalBytes_append, totalBytes_singleton]
    rcases h2 with he | hle
    · rw [he]
      simp only [totalBytes, List.map_nil, List.sum_nil]
      omega
    · omega

theorem cacheGet_wf (k : String) (st : CacheState)
    (hwf : st.size = totalBytes st.entries) :
    (cacheGet k st).2.size = totalBytes (cacheGet k st).2.entries
    ∧ totalBytes (cacheGet k st).2.entries = totalBytes st.entries := by
  unfold cacheGet
  rcases hfv : findVal k st.entries with _ | v
  · exact ⟨hwf, rfl⟩
  · have hpop := totalBytes_popKey_add k st.entries v hfv
    simp only
    rw [totalBytes_append, totalBytes_singleton]
    omega

theorem runOps_bound (cap : Nat) (ops : List CacheOp) (st : CacheState)
    (hwf : st.size = totalBytes st.entries)
    (hbound : totalBytes st.entries ≤ cap)
    (hops : ∀ k v, CacheOp.put k v ∈ ops → v.length ≤ cap) :
    totalBytes (runOps cap ops st).entries ≤ cap := by
  induction ops generalizing st with
  | nil => exact hbound
  | cons op rest ih =>
    cases op with
    | put k v =>
      have hv : v.length ≤ cap := hops k v (List.mem_cons_self _ _)
      simp only [runOps]
      exact ih (cachePut cap k v st) (cachePut_wf cap k v st hwf)
        (cachePut_bound cap k v st hwf hv)
        (fun k2 v2 hm => hops k2 v2 (List.mem_cons_of_mem _ hm))
    | get k =>
      obtain ⟨h1, h2⟩ := cacheGet_wf k st hwf
      simp only [runOps]
      exact ih (cacheGet k st).2 h1 (h2 ▸ hbound)
        (fun k2 v2 hm => hops k2 v2 (List.mem_cons_of_mem _ hm))

end Flux.MemoryManager

namespace Flux.TransactionManager

/-!
Embedding of `TransactionManager`
(src/flux_mcp/core/transaction_manager.py).  Paths are a target file or
its dotted temp file in the same directory; the filesystem maps each
path to `none` (absent) or its byte contents.  The asyncio lock, the
advisory `flock`, file descriptors and `fsync` have no observable
effect on the modelled state and are elided; dictionaries are
association lists in insertion order.
-/

/-- Bytes of a file. -/
abbrev Bytes := List Nat

/-- A filesystem path: the target file `p`, or the unique staged temp file
that `mkstemp` creates next to `p` (`.<name>.<nonce>.tmp`). -/
inductive FsPath
  | target (s : String)
  | temp (s : String)
deriving DecidableEq

/-- The filesystem: contents of each path, `none` when absent. -/
abbrev FS := FsPath → Option Bytes

/-- Point update of the filesystem. -/
def upd (fs : FS) (p : FsPath) (v : Option Bytes) : FS :=
  fun q => if q = p then v else fs q

/-- The `Transaction` dataclass (lines 14-23); uuid/timestamp and the
lock/handle tables are elided (locks are observable only cross-process). -/
structure Txn where
  original_states : List (FsPath × Bytes)
  temp_files : List (FsPath × FsPath)
  is_committed : Bool
  is_rolled_back : Bool

/-- Manager state: the transaction table plus the filesystem it acts on. -/
structure TMState where
  transactions : List (String × Txn)
  fs : FS

/-- The `ValueError` kinds raised by the manager. -/
inductive TxError
  | unknownTransaction
  | transactionFinished
  | noLockAcquired
deriving DecidableEq

/-- `self.transactions.get(transaction_id)`. -/
def findTxn (tid : String) : List (String × Txn) → Option Txn
  | [] => none
  | (a, t) :: es => if a = tid then some t else findTxn tid es

/-- Dictionary assignment `self.transactions[tid] = t`. -/
def setTxn (tid : String) (t : Txn) : List (String × Txn) → List (String × Txn)
  | [] => [(tid, t)]
  | (a, u) :: es => if a = tid then (a, t) :: es else (a, u) :: setTxn tid t es

/-- Dictionary read on a path-keyed table. -/
def getAssoc {β : Type} (k : FsPath) : List (FsPath × β) → Option β
  | [] => none
  | (a, v) :: es => if a = k then some v else getAssoc k es

/-- Dictionary assignment on a path-keyed table. -/
def setAssoc {β : Type} (k : FsPath) (v : β) : List (FsPath × β) → List (FsPath × β)
  | [] => [(k, v)]
  | (a, u) :: es => if a = k then (a, v) :: es else (a, u) :: setAssoc k v es

/-- `TransactionManager.begin` (lines 31-39), with the fresh uuid supplied
by the caller. -/
def begin (tid : String) (st : TMState) : TMState :=
  { st with transactions := st.transactions ++ [(tid, Txn.mk [] [] false false)] }

/-- `TransactionManager.acquire_file_lock` (lines 41-90): reject unknown and
finished transactions; create the file if absent (`touch`); read the
current bytes as the pre-image (the read happens after the touch, so an
absent file is captured as empty bytes); create an empty temp file. -/
def acquire_file_lock (tid : String) (p : String) (st : TMState) :
    Except TxError TMState :=
  match findTxn tid st.transactions with
  | none => Except.error TxError.unknownTransaction
  | some t =>
    if t.is_committed || t.is_rolled_back then Except.error TxError.transactionFinished
    else
      let path := FsPath.target p
      let fsTouched :=
        match st.fs path with
        | none => upd st.fs path (some [])
        | some _ => st.fs
      let pre := (fsTouched path).getD []
      let tempPath := FsPath.temp p
      let t2 : Txn :=
        { t with original_states := setAssoc path pre t.original_states,
                 temp_files := setAssoc path tempPath t.temp_files }
      Except.ok
        { transactions := setTxn tid t2 st.transactions,
          fs := upd fsTouched tempPath (some []) }

/-- `TransactionManager.write_to_temp` (lines 92-112): reject unknown
transactions and unstaged paths, then overwrite the temp file.  The
source performs NO terminal-state check here. -/
def write_to_temp (tid : String) (p : String) (content : Bytes) (st : TMState) :
    Except TxError TMState :=
  match findTxn tid st.transactions with
  | none => Except.error TxError.unknownTransaction
  | some t =>
    match getAssoc (FsPath.target p) t.temp_files with
    | none => Except.error TxError.noLockAcquired
    | some tempPath =>
      Except.ok { st with fs := upd st.fs tempPath (some content) }

/-- `TransactionManager.commit` (lines 114-130): reject unknown and finished
transactions, then rename every staged temp file over its target and mark
committed.  `shutil.move` of a temp file that exists moves its bytes over
the target and removes the temp; in every state our runs reach the temp
exists at commit time (a missing temp would raise in Python and is
modelled as a no-op). -/
def commit (tid : String) (st : TMState) : Except TxError TMState :=
  match findTxn tid st.transactions with
  | none => Except.error TxError.unknownTransaction
  | some t =>
    if t.is_committed || t.is_rolled_back then Except.error TxError.transactionFinished
    else
      let fs2 := t.temp_files.foldl
        (fun fs pr =>
          match fs pr.2 with
          | some v => upd (upd fs pr.2 none) pr.1 (some v)
          | none => fs)
        st.fs
      Except.ok
        { transactions := setTxn tid { t with is_committed := true } st.transactions,
          fs := fs2 }

/-- `TransactionManager.rollback` (lines 132-158): reject unknown and
finished transactions; for each captured pre-image, write it back if it is
truthy (non-empty), otherwise unlink the file if it exists; then unlink
remaining temp files and mark rolled back. -/
def rollback (tid : String) (st : TMState) : Except TxError TMState :=
  match findTxn tid st.transactions with
  | none => Except.error TxError.unknownTransaction
  | some t =>
    if t.is_committed || t.is_rolled_back then Except.error TxError.transactionFinished
    else
      let fs1 := t.original_states.foldl
        (fun fs pr =>
          if pr.2 = [] then
            if (fs pr.1).isSome then upd fs pr.1 none else fs
          else upd fs pr.1 (some pr.2))
        st.fs
      let fs2 := t.temp_files.foldl
        (fun fs pr => if (fs pr.2).isSome then upd fs pr.2 none else fs)
        fs1
      Except.ok
        { transactions := setTxn tid { t with is_rolled_back := true } st.transactions,
          fs := fs2 }

/-- A filesystem holding exactly one (possibly absent) target file `a`. -/
def singleFileFs (pre : Option Bytes) : FS :=
  fun q => if q = FsPath.target "a" then pre else none

/-- The transactional core of an aborted `text_replace` on file `a` whose
pre-call contents are `pre`: begin, acquire the lock (capturing the
pre-image), stage any number of temp writes, then roll back. -/
def abortedReplace (pre : Option Bytes) (writes : List Bytes) :
    Except TxError TMState :=
  (acquire_file_lock "t" "a" (begin "t" (TMState.mk [] (singleFileFs pre)))).bind
    (fun st2 =>
      (writes.foldlM (fun st w => write_to_temp "t" "a" w st) st2).bind
        (rollback "t"))

end Flux.TransactionManager

namespace Flux.TransactionManager

theorem foldlM_write_spec (writes : List Bytes) :
    ∀ (st : TMState) (t : Txn),
      findTxn "t" st.transactions = some t →
      getAssoc (FsPath.target "a") t.temp_files = some (FsPath.temp "a") →
      ∃ st2,
        writes.foldlM (fun s w => write_to_temp "t" "a" w s) st = Except.ok st2
        ∧ st2.transactions = st.transactions
        ∧ ∀ q, q ≠ FsPath.temp "a" → st2.fs q = st.fs q := by
  induction writes with
  | nil =>
    intro st t hft hga
    exact ⟨st, rfl, rfl, fun q _ => rfl⟩
  | cons w rest ih =>
    intro st t hft hga
    have hw : write_to_temp "t" "a" w st =
        Except.ok { st with fs := upd st.fs (FsPath.temp "a") (some w) } := by
      simp only [write_to_temp, hft, hga]
    obtain ⟨st2, h1, h2, h3⟩ :=
      ih { st with fs := upd st.fs (FsPath.temp "a") (some w) } t hft hga
    refine ⟨st2, ?_, h2, ?_⟩
    · simpa [List.foldlM, hw] using h1
    · intro q hq
      have := h3 q hq
      simp only [upd, if_neg hq] at this
      exact this

end Flux.TransactionManager

namespace Flux.TransactionManager

theorem apply_tempclean_at_target (fs : FS) (p q : String) :
    (if (fs (FsPath.temp q)).isSome then upd fs (FsPath.temp q) none else fs)
      (FsPath.target p) = fs (FsPath.target p) := by
  split <;> simp [upd]

theorem apply_restore_at_target (fs : FS) (p : String) (preB : Bytes)
    (hfs : fs (FsPath.target p) = some preB) :
    (if preB = [] then
        (if (fs (FsPath.target p)).isSome then upd fs (FsPath.target p) none else fs)
      else upd fs (FsPath.target p) (some preB)) (FsPath.target p)
    = if preB = [] then none else some preB := by
  by_cases hpre : preB = []
  · subst hpre
    rw [if_pos rfl, if_pos (by rw [hfs]; rfl), if_pos rfl]
    simp [upd]
  · rw [if_neg hpre, if_neg hpre]
    simp [upd]

theorem abortedReplace_spec (pre : Option Bytes) (writes : List Bytes) :
    (abortedReplace pre writes).map (fun st => st.fs (FsPath.target "a"))
      = Except.ok (match pre with
          | some (b :: bs) => some (b :: bs)
          | _ => none) := by
  have hacq : ∃ fsA,
      acquire_file_lock "t" "a" (begin "t" (TMState.mk [] (singleFileFs pre)))
        = Except.ok (TMState.mk
            [("t", Txn.mk [(FsPath.target "a", pre.getD [])]
              [(FsPath.target "a", FsPath.temp "a")] false false)] fsA)
      ∧ fsA (FsPath.target "a") = some (pre.getD []) := by
    rcases pre with _ | bs
    · exact ⟨_, rfl, rfl⟩
    · exact ⟨_, rfl, rfl⟩
  obtain ⟨fsA, hA, hAv⟩ := hacq
  have hft : findTxn "t" [("t", Txn.mk [(FsPath.target "a", pre.getD [])]
      [(FsPath.target "a", FsPath.temp "a")] false false)]
      = some (Txn.mk [(FsPath.target "a", pre.getD [])]
      [(FsPath.target "a", FsPath.temp "a")] false false) := by
    simp [findTxn]
  have hga : getAssoc (FsPath.target "a")
      (Txn.mk [(FsPath.target "a", pre.getD [])]
        [(FsPath.target "a", FsPath.temp "a")] false false).temp_files
      = some (FsPath.temp "a") := by
    simp [getAssoc]
  obtain ⟨st2, hw, hwt, hwf⟩ := foldlM_write_spec writes
    (TMState.mk [("t", Txn.mk [(FsPath.target "a", pre.getD [])]
      [(FsPath.target "a", FsPath.temp "a")] false false)] fsA) _ hft hga
  have hfst : st2.fs (FsPath.target "a") = some (pre.getD []) := by
    rw [hwf (FsPath.target "a") (by simp)]
    exact hAv
  have hft2 : findTxn "t" st2.transactions
      = some (Txn.mk [(FsPath.target "a", pre.getD [])]
        [(FsPath.target "a", FsPath.temp "a")] false false) := by
    rw [hwt]; exact hft
  have hrb : rollback "t" st2 = Except.ok
      { transactions := setTxn "t"
          (Txn.mk [(FsPath.target "a", pre.getD [])]
            [(FsPath.target "a", FsPath.temp "a")] false true) st2.transactions,
        fs := List.foldl
          (fun fs pr => if (fs pr.2).isSome then upd fs pr.2 none else fs)
          (List.foldl
            (fun fs pr =>
              if pr.2 = [] then
                if (fs pr.1).isSome then upd fs pr.1 none else fs
              else upd fs pr.1 (some pr.2))
            st2.fs [(FsPath.target "a", pre.getD [])])
          [(FsPath.target "a", FsPath.temp "a")] } := by
    simp only [rollback, hft2]
    rfl
  simp only [abortedReplace, hA, Except.bind, hw, hrb, Except.map]
  congr 1
  simp only [List.foldl]
  rw [apply_tempclean_at_target, apply_restore_at_target st2.fs "a" (pre.getD []) hfst]
  rcases pre with _ | bs
  · rfl
  · rcases bs with _ | ⟨b, bs2⟩
    · rfl
    · simp

end Flux.TransactionManager

namespace Flux.TransactionManager

/-- A replace on file `a` that begins, acquires, stages `[9]`, and commits. -/
def committedReplace : Except TxError TMState :=
  (acquire_file_lock "t" "a" (begin "t" (TMState.mk [] (singleFileFs (some [7]))))).bind
    (fun st2 => (write_to_temp "t" "a" [9] st2).bind (fun st3 => commit "t" st3))

/-- After the commit, call `write_to_temp` again on the finished transaction. -/
def writeAfterCommit : Except TxError TMState :=
  committedReplace.bind (fun st => write_to_temp "t" "a" [1] st)

end Flux.TransactionManager

namespace Flux.MemoryManager

/-!
Embedding of the mapped-file line index
(src/flux_mcp/core/memory_manager.py, lines 93-125).  File contents are
byte lists; a newline byte is `10`.
-/

/-- Positions one past each newline byte, scanning from absolute offset
`ofs`: the successive values of `position` that `_build_index_sync`
appends to the index. -/
def nlPositions : List Nat → Nat → List Nat
  | [], _ => []
  | b :: t, ofs =>
    if b = 10 then (ofs + 1) :: nlPositions t (ofs + 1) else nlPositions t (ofs + 1)

/-- `MemoryManager._build_index_sync` (lines 93-104): offset `0`, then one
entry per newline, each one past the newline byte. -/
def lineIndex (c : List Nat) : List Nat := 0 :: nlPositions c 0

/-- Number of newline bytes in the file. -/
def count10 (c : List Nat) : Nat := c.countP (fun b => b = 10)

/-- The decomposition of a file into its lines, keeping terminators: one
piece per newline (ending in it) plus the terminator-less tail piece. -/
def linesKeep : List Nat → List (List Nat)
  | [] => [[]]
  | b :: t =>
    if b = 10 then [10] :: linesKeep t
    else
      match linesKeep t with
      | [] => [[b]]
      | p :: ps => (b :: p) :: ps

/-- `MemoryManager._read_lines` (lines 106-125) with explicit line numbers:
clamp both to `[0, line_count)`, then slice the mapped bytes from
`offsets[start]` to `offsets[end + 1]` (or the file size when the end
line is the last). -/
def readLines (c : List Nat) (s e : Nat) : List Nat :=
  let idx := lineIndex c
  let lc := idx.length
  let s2 := min s (lc - 1)
  let e2 := min e (lc - 1)
  let startPos := idx.getD s2 0
  let endPos := if lc - 1 ≤ e2 then c.length else idx.getD (e2 + 1) 0
  (c.drop startPos).take (endPos - startPos)

/-- Byte offset at which piece `i` of the line decomposition starts. -/
def pieceOffsets (c : List Nat) (i : Nat) : Nat :=
  (((linesKeep c).take i).map List.length).sum

theorem count10_cons_nl (t : List Nat) : count10 (10 :: t) = count10 t + 1 := by
  simp [count10, List.countP_cons]

theorem count10_cons_other (b : Nat) (t : List Nat) (hb : ¬ b = 10) :
    count10 (b :: t) = count10 t := by
  simp [count10, List.countP_cons, hb]

theorem nlPositions_cons_nl (t : List Nat) (ofs : Nat) :
    nlPositions (10 :: t) ofs = (ofs + 1) :: nlPositions t (ofs + 1) := by
  simp [nlPositions]

theorem nlPositions_cons_other (b : Nat) (t : List Nat) (ofs : Nat) (hb : ¬ b = 10) :
    nlPositions (b :: t) ofs = nlPositions t (ofs + 1) := by
  simp only [nlPositions, if_neg hb]

theorem linesKeep_cons_nl (t : List Nat) :
    linesKeep (10 :: t) = [10] :: linesKeep t := by
  simp [linesKeep]

theorem linesKeep_cons_other (b : Nat) (t : List Nat) (hb : ¬ b = 10) :
    linesKeep (b :: t) =
      match linesKeep t with
      | [] => [[b]]
      | p :: ps => (b :: p) :: ps := by
  simp only [linesKeep, if_neg hb]

theorem map_add_add (l : List Nat) (a b : Nat) :
    (l.map (fun x => x + a)).map (fun x => x + b) = l.map (fun x => x + (a + b)) := by
  induction l with
  | nil => rfl
  | cons x xs ih =>
    simp only [List.map_cons, ih]
    congr 1
    omega

theorem nlPositions_shift (c : List Nat) (ofs : Nat) :
    nlPositions c ofs = (nlPositions c 0).map (fun x => x + ofs) := by
  induction c generalizing ofs with
  | nil => rfl
  | cons b t ih =>
    by_cases hb : b = 10
    · subst hb
      rw [nlPositions_cons_nl, nlPositions_cons_nl, List.map_cons]
      simp only [Nat.zero_add]
      rw [ih (ofs + 1), ih 1, map_add_add, Nat.add_comm 1 ofs]
    · rw [nlPositions_cons_other b t ofs hb, nlPositions_cons_other b t 0 hb]
      simp only [Nat.zero_add]
      rw [ih (ofs + 1), ih 1, map_add_add, Nat.add_comm 1 ofs]

theorem lineIndex_cons_nl (t : List Nat) :
    lineIndex (10 :: t) = 0 :: (lineIndex t).map (fun x => x + 1) := by
  simp only [lineIndex, nlPositions_cons_nl, List.map_cons]
  rw [nlPositions_shift t 1]

theorem lineIndex_cons_other (b : Nat) (t : List Nat) (hb : ¬ b = 10) :
    lineIndex (b :: t) = 0 :: (nlPositions t 0).map (fun x => x + 1) := by
  simp only [lineIndex, nlPositions_cons_other b t 0 hb]
  rw [nlPositions_shift t 1]

theorem linesKeep_ne_nil (c : List Nat) : linesKeep c ≠ [] := by
  cases c with
  | nil => simp [linesKeep]
  | cons b t =>
    simp only [linesKeep]
    split
    · simp
    · split <;> simp

theorem linesKeep_length (c : List Nat) :
    (linesKeep c).length = count10 c + 1 := by
  induction c with
  | nil => rfl
  | cons b t ih =>
    by_cases hb : b = 10
    · subst hb
      rw [count10_cons_nl, linesKeep_cons_nl]
      simp only [List.length_cons]
      omega
    · rw [count10_cons_other b t hb, linesKeep_cons_other b t hb]
      rcases hlk : linesKeep t with _ | ⟨p, ps⟩
      · exact absurd hlk (linesKeep_ne_nil t)
      · rw [hlk] at ih
        simp only [List.length_cons] at ih ⊢
        omega

theorem linesKeep_join (c : List Nat) : (linesKeep c).join = c := by
  induction c with
  | nil => rfl
  | cons b t ih =>
    by_cases hb : b = 10
    · subst hb
      rw [linesKeep_cons_nl]
      simp only [List.join_cons, ih]
      rfl
    · rw [linesKeep_cons_other b t hb]
      rcases hlk : linesKeep t with _ | ⟨p, ps⟩
      · exact absurd hlk (linesKeep_ne_nil t)
      · rw [hlk] at ih
        simp only [List.join_cons] at ih ⊢
        rw [List.cons_append, ih]

theorem nlPositions_length (c : List Nat) (ofs : Nat) :
    (nlPositions c ofs).length = count10 c := by
  induction c generalizing ofs with
  | nil => rfl
  | cons b t ih =>
    by_cases hb : b = 10
    · subst hb
      rw [count10_cons_nl, nlPositions_cons_nl]
      simp only [List.length_cons, ih]
    · rw [count10_cons_other b t hb, nlPositions_cons_other b t ofs hb, ih]

theorem lineIndex_length (c : List Nat) :
    (lineIndex c).length = count10 c + 1 := by
  simp [lineIndex, nlPositions_length]

theorem lineIndex_get? (c : List Nat) :
    ∀ i, i ≤ count10 c → (lineIndex c).get? i = some (pieceOffsets c i) := by
  induction c with
  | nil =>
    intro i hi
    simp only [count10, List.countP_nil, Nat.le_zero] at hi
    subst hi
    rfl
  | cons b t ih =>
    intro i hi
    by_cases hb : b = 10
    · subst hb
      rcases i with _ | j
      · rfl
      · rw [count10_cons_nl] at hi
        rw [lineIndex_cons_nl]
        have h1 : (0 :: (lineIndex t).map (fun x => x + 1)).get? (j + 1)
            = ((lineIndex t).map (fun x => x + 1)).get? j := rfl
        rw [h1, List.get?_map, ih j (by omega)]
        show some (pieceOffsets t j + 1) = some (pieceOffsets (10 :: t) (j + 1))
        congr 1
        rw [pieceOffsets, pieceOffsets, linesKeep_cons_nl, List.take_succ_cons,
          List.map_cons, List.sum_cons]
        simp only [List.length_cons, List.length_nil]
        omega
    · rw [count10_cons_other b t hb] at hi
      rcases i with _ | j
      · rfl
      · rw [lineIndex_cons_other b t hb]
        have h1 : (0 :: (nlPositions t 0).map (fun x => x + 1)).get? (j + 1)
            = ((nlPositions t 0).map (fun x => x + 1)).get? j := rfl
        rw [h1, List.get?_map]
        have hlt : (lineIndex t).get? (j + 1) = some (pieceOffsets t (j + 1)) :=
          ih (j + 1) hi
        have h2 : (lineIndex t).get? (j + 1) = (nlPositions t 0).get? j := rfl
        rw [h2] at hlt
        rw [hlt]
        show some (pieceOffsets t (j + 1) + 1) = some (pieceOffsets (b :: t) (j + 1))
        congr 1
        rw [pieceOffsets, pieceOffsets, linesKeep_cons_other b t hb]
        rcases hlk : linesKeep t with _ | ⟨p, ps⟩
        · exact absurd hlk (linesKeep_ne_nil t)
        · simp only [List.take_succ_cons, List.map_cons, List.sum_cons,
            List.length_cons]
          omega

theorem pieceOffsets_le (c : List Nat) (i : Nat) : pieceOffsets c i ≤ c.length := by
  have h1 : c.length = ((linesKeep c).map List.length).sum := by
    conv_lhs => rw [← linesKeep_join c]
    rw [List.length_join]
  rw [h1]
  have h2 : ((linesKeep c).map List.length).take i
      = ((linesKeep c).take i).map List.length := by
    rw [List.map_take]
  have h3 := List.sum_take_add_sum_drop ((linesKeep c).map List.length) i
  simp only [pieceOffsets, ← h2]
  omega

theorem drop_sum_take_join (L : List (List Nat)) (i : Nat) :
    L.join.drop (((L.take i).map List.length).sum) = (L.drop i).join := by
  induction L generalizing i with
  | nil => simp
  | cons p ps ih =>
    cases i with
    | zero => simp
    | succ j =>
      simp only [List.take_succ_cons, List.map_cons, List.sum_cons, List.join_cons,
        List.drop_succ_cons]
      rw [← List.drop_drop, List.drop_left]
      exact ih j

theorem sum_map_len_take_succ (L : List (List Nat)) (i : Nat) (h : i < L.length) :
    ((L.take (i + 1)).map List.length).sum
      = ((L.take i).map List.length).sum + (L.getD i []).length := by
  have hx : L[i]? = some (L.get ⟨i, h⟩) := by
    rw [← List.get?_eq_getElem?]
    exact List.get?_eq_get h
  rw [List.take_succ, hx]
  simp only [List.map_append, List.sum_append, List.map_cons, List.map_nil,
    List.sum_cons, List.sum_nil, Option.toList_some, List.getD]
  simp [hx]

theorem drop_pred_singleton (L : List (List Nat)) (i : Nat) (h : L.length = i + 1) :
    L.drop i = [L.getD i []] := by
  induction L generalizing i with
  | nil => simp at h
  | cons p ps ih =>
    cases i with
    | zero =>
      simp only [List.length_cons, Nat.add_right_cancel_iff] at h
      have : ps = [] := List.length_eq_zero.mp h
      subst this
      rfl
    | succ j =>
      simp only [List.length_cons, Nat.add_right_cancel_iff] at h
      simp only [List.drop_succ_cons, List.getD_cons_succ]
      exact ih j h

theorem readLines_eq (c : List Nat) (i : Nat) (h : i ≤ count10 c) :
    readLines c i i = (linesKeep c).getD i [] := by
  unfold readLines
  simp only [lineIndex_length]
  have hmin : min i (count10 c + 1 - 1) = i := by omega
  have hstart : (lineIndex c).getD i 0 = pieceOffsets c i := by
    have h5 := lineIndex_get? c i h
    rw [List.get?_eq_getElem?] at h5
    simp [List.getD, h5]
  have hilk : i < (linesKeep c).length := by rw [linesKeep_length]; omega
  simp only [hmin]
  rw [hstart]
  by_cases hlast : count10 c + 1 - 1 ≤ i
  · rw [if_pos hlast]
    have hieq : i = count10 c := by omega
    have hdrop : c.drop (pieceOffsets c i) = ((linesKeep c).drop i).join := by
      have h6 := drop_sum_take_join (linesKeep c) i
      rw [linesKeep_join] at h6
      exact h6
    rw [hdrop]
    have hsingle : (linesKeep c).drop i = [(linesKeep c).getD i []] :=
      drop_pred_singleton (linesKeep c) i (by rw [linesKeep_length, hieq])
    rw [hsingle]
    simp only [List.join_cons, List.join_nil, List.append_nil]
    apply List.take_all_of_le
    have hle : ((linesKeep c).getD i []).length + pieceOffsets c i ≤ c.length := by
      have h4 := sum_map_len_take_succ (linesKeep c) i hilk
      have h2 := pieceOffsets_le c (i + 1)
      simp only [pieceOffsets] at h2 h4 ⊢
      omega
    omega
  · rw [if_neg hlast]
    have hnext : (lineIndex c).getD (i + 1) 0 = pieceOffsets c (i + 1) := by
      have h5 := lineIndex_get? c (i + 1) (by omega)
      rw [List.get?_eq_getElem?] at h5
      simp [List.getD, h5]
    rw [hnext]
    have hdrop : c.drop (pieceOffsets c i) = ((linesKeep c).drop i).join := by
      have h6 := drop_sum_take_join (linesKeep c) i
      rw [linesKeep_join] at h6
      exact h6
    rw [hdrop]
    have hdropcons : (linesKeep c).drop i
        = (linesKeep c).getD i [] :: (linesKeep c).drop (i + 1) := by
      have hg : (linesKeep c).getD i [] = (linesKeep c).get ⟨i, hilk⟩ := by
        rw [List.getD_eq_getElem _ _ hilk, List.get_eq_getElem]
      rw [hg]
      exact List.drop_eq_get_cons hilk
    rw [hdropcons]
    simp only [List.join_cons]
    have hlen : pieceOffsets c (i + 1) - pieceOffsets c i
        = ((linesKeep c).getD i []).length := by
      have h4 := sum_map_len_take_succ (linesKeep c) i hilk
      simp only [pieceOffsets] at h4 ⊢
      omega
    rw [hlen]
    exact List.take_left _ _

end Flux.MemoryManager

namespace Flux.TextEditor

/-!
Embedding of the splice loop of `TextEditor._regex_based_replace`
(src/flux_mcp/operations/text_editor.py, lines 1248-1284).  The regex
engine itself is not embedded; its output — the list of non-overlapping
match spans in ascending order, as `re.finditer` produces them — is the
input of the loop.  The replacement string here is the plain case
(no `\\` or `$`), which the code inserts literally.
-/

/-- One splice: `new_content[:start] + replaced + new_content[end:]`. -/
def splice (c : List Char) (s e : Nat) (r : List Char) : List Char :=
  c.take s ++ r ++ c.drop e

/-- The loop `for match in reversed(matches): ...`: apply the splices in
right-to-left match order. -/
def applyReversed (c : List Char) (ms : List (Nat × Nat)) (r : List Char) :
    List Char :=
  ms.reverse.foldl (fun acc m => splice acc m.1 m.2 r) c

/-- The specified result: the content with every matched span replaced by
the replacement, written by walking the spans left to right. -/
def replaceAll (c : List Char) (ms : List (Nat × Nat)) (r : List Char) :
    List Char :=
  match ms with
  | [] => c
  | (s, e) :: rest =>
    c.take s ++ r ++ replaceAll (c.drop e) (rest.map (fun m => (m.1 - e, m.2 - e))) r
termination_by ms.length
decreasing_by simp [List.length_map]

/-- Well-formed output of `re.finditer`: spans are in ascending order,
non-overlapping, each within the content; `lo` is a lower bound on the
next start. -/
def SpansSorted (n : Nat) : Nat → List (Nat × Nat) → Prop
  | _, [] => True
  | lo, (s, e) :: rest => lo ≤ s ∧ s ≤ e ∧ e ≤ n ∧ SpansSorted n e rest

end Flux.TextEditor

namespace Flux.TextEditor

theorem applyReversed_nil (c r : List Char) : applyReversed c [] r = c := rfl

theorem applyReversed_cons (c r : List Char) (s e : Nat) (rest : List (Nat × Nat)) :
    applyReversed c ((s, e) :: rest) r = splice (applyReversed c rest r) s e r := by
  unfold applyReversed
  rw [List.reverse_cons, List.foldl_append]
  rfl

theorem spansSorted_mono (n : Nat) :
    ∀ (rest : List (Nat × Nat)) (lo lo2 : Nat), lo2 ≤ lo →
      SpansSorted n lo rest → SpansSorted n lo2 rest := by
  intro rest
  cases rest with
  | nil => intro lo lo2 _ _; trivial
  | cons m ms =>
    intro lo lo2 hle hs
    obtain ⟨h1, h2, h3, h4⟩ := hs
    exact ⟨by omega, h2, h3, h4⟩

theorem spansSorted_shift (n : Nat) :
    ∀ (rest : List (Nat × Nat)) (lo e : Nat), e ≤ lo →
      SpansSorted n lo rest →
      SpansSorted (n - e) (lo - e) (rest.map (fun m => (m.1 - e, m.2 - e))) := by
  intro rest
  induction rest with
  | nil => intro lo e _ _; trivial
  | cons m ms ih =>
    intro lo e hle hs
    obtain ⟨h1, h2, h3, h4⟩ := hs
    refine ⟨by omega, by omega, by omega, ?_⟩
    exact ih m.2 e (by omega) h4

theorem applyReversed_drop (rest : List (Nat × Nat)) :
    ∀ (c r : List Char) (e : Nat), e ≤ c.length →
      SpansSorted c.length e rest →
      applyReversed c rest r
        = c.take e ++ applyReversed (c.drop e)
            (rest.map (fun m => (m.1 - e, m.2 - e))) r := by
  induction rest with
  | nil =>
    intro c r e he _
    simp only [applyReversed_nil, List.map_nil]
    rw [List.take_append_drop]
  | cons m ms ih =>
    intro c r e he hs
    obtain ⟨h1, h2, h3, h4⟩ := hs
    obtain ⟨s1, e1⟩ := m
    simp only at h1 h2 h3 h4
    rw [applyReversed_cons, ih c r e he (spansSorted_mono _ ms e1 e (by omega) h4)]
    simp only [List.map_cons, applyReversed_cons]
    unfold splice
    have hlt : (c.take e).length = e := by
      rw [List.length_take]
      omega
    rw [List.take_append_eq_append_take, List.drop_append_eq_append_drop, hlt]
    have h5 : (c.take e).take s1 = c.take e := by
      apply List.take_all_of_le
      omega
    have h6 : (c.take e).drop e1 = [] := by
      apply List.drop_eq_nil_of_le
      omega
    rw [h5, h6]
    simp [List.append_assoc]

theorem applyReversed_eq_replaceAll_aux (k : Nat) :
    ∀ (ms : List (Nat × Nat)) (c r : List Char), ms.length ≤ k →
      SpansSorted c.length 0 ms →
      applyReversed c ms r = replaceAll c ms r := by
  induction k with
  | zero =>
    intro ms c r hlen _
    have : ms = [] := List.length_eq_zero.mp (by omega)
    subst this
    simp [applyReversed_nil, replaceAll]
  | succ n ih =>
    intro ms c r hlen hs
    cases ms with
    | nil => simp [applyReversed_nil, replaceAll]
    | cons m rest =>
      obtain ⟨s, e⟩ := m
      obtain ⟨h1, h2, h3, h4⟩ := hs
      rw [applyReversed_cons,
        applyReversed_drop rest c r e h3 h4]
      unfold splice
      have hlt : (c.take e).length = e := by
        rw [List.length_take]
        omega
      rw [List.take_append_eq_append_take, List.drop_append_eq_append_drop, hlt]
      have h5 : (c.take e).take s = c.take s := by
        rw [List.take_take]
        congr 1
        omega
      have h6 : (c.take e).drop e = [] := by
        apply List.drop_eq_nil_of_le
        omega
      have h7 : s - e = 0 := by omega
      have h8 : e - e = 0 := by omega
      rw [h5, h6, h7, h8, List.take_zero, List.drop_zero, List.append_nil,
        List.nil_append]
      have h9 := ih (rest.map (fun m => (m.1 - e, m.2 - e))) (c.drop e) r
        (by rw [List.length_map]; simp only [List.length_cons] at hlen; omega)
        (by
          have := spansSorted_shift c.length rest e e (le_refl e) h4
          rw [List.length_drop]
          simpa using this)
      rw [h9]
      conv_rhs => rw [replaceAll]

theorem applyReversed_eq_replaceAll (ms : List (Nat × Nat)) (c r : List Char)
    (hs : SpansSorted c.length 0 ms) :
    applyReversed c ms r = replaceAll c ms r :=
  applyReversed_eq_replaceAll_aux ms.length ms c r (le_refl _) hs

end Flux.TextEditor

namespace Flux.TextEditor

/-!
Embedding of the strict indentation validation gate of
`TextEditor.text_replace` (src/flux_mcp/operations/text_editor.py,
lines 874-986).  The gate runs on the structured (parser) path only,
and only when the replacement has more than one line; when the
collected error list is non-empty the replace rolls back before any
bytes are staged.
-/

/-- One structured indentation error, with its 1-based line number,
the offending line, and the error type tag. -/
structure IndentErr where
  line_number : Nat
  line_content : List Char
  error_type : String
deriving DecidableEq

/-- Index of the first line whose `strip()` is truthy (lines 880-884). -/
def firstContentIdx : List (List Char) → Option Nat
  | [] => none
  | l :: ls =>
    if hasContent l then some 0 else (firstContentIdx ls).map (fun n => n + 1)

/-- The indent-unit detection loop (lines 896-903): the first later content
line indented deeper than the first content line fixes the unit as the
difference; otherwise the default 4 stands. -/
def detectUnit (base : Nat) : List (List Char) → Nat
  | [] => 4
  | l :: ls =>
    if hasContent l ∧ base < (leadingWs l).length then (leadingWs l).length - base
    else detectUnit base ls

/-- The baseline indentation character (line 892): tab if the first content
line's leading whitespace holds a tab, otherwise space. -/
def indentBaseChar (lines : List (List Char)) (fi : Nat) : Char :=
  if (leadingWs (lines.getD fi [])).contains '\t' then '\t' else ' '

/-- The detected indent unit (lines 895-903). -/
def indentUnitOf (lines : List (List Char)) (fi : Nat) : Nat :=
  let baseSize := (leadingWs (lines.getD fi [])).length
  if indentBaseChar lines fi = ' ' ∧ 0 < baseSize then
    detectUnit baseSize (lines.drop (fi + 1))
  else 4

/-- The per-line checks of the validation loop (lines 905-949), in source
order: mixed tabs and spaces, character inconsistent with the baseline,
and space indentation that is not a multiple of the unit.  Blank lines
are skipped. -/
def lineErrors (baseChar : Char) (unit : Nat) (idx : Nat) (line : List Char) :
    List IndentErr :=
  if hasContent line then
    (if (leadingWs line).contains ' ' ∧ (leadingWs line).contains '\t' then
        [IndentErr.mk (idx + 1) line "MIXED_INDENTATION"] else [])
    ++ (if leadingWs line ≠ [] ∧ (((leadingWs line).contains '\t' ∧ baseChar = ' ')
          ∨ ((leadingWs line).contains ' ' ∧ baseChar = '\t')) then
        [IndentErr.mk (idx + 1) line "INCONSISTENT_CHAR"] else [])
    ++ (if baseChar = ' ' ∧ (leadingWs line).length % unit ≠ 0 ∧ 0 < (leadingWs line).length then
        [IndentErr.mk (idx + 1) line "INVALID_INDENT_SIZE"] else [])
  else []

/-- The `indentation_errors` list that `text_replace` collects for a
replacement (lines 874-949): empty — hence no abort — unless the
replacement has more than one line and some line fails a check. -/
def indentationErrors (replaceWith : List Char) : List IndentErr :=
  let lines := splitNl replaceWith
  if lines.length ≤ 1 then []
  else
    match firstContentIdx lines with
    | none => []
    | some fi =>
      let baseChar := indentBaseChar lines fi
      let unit := indentUnitOf lines fi
      (lines.enum.map (fun p => lineErrors baseChar unit p.1 p.2)).join

/-- The gate: the replace proceeds towards staging iff no indentation
errors were collected (lines 951-986 abort and roll back otherwise). -/
def indentGatePasses (replaceWith : List Char) : Bool :=
  (indentationErrors replaceWith).isEmpty

/-- Some line of the replacement has content and mixes a space and a tab in
its leading whitespace. -/
def hasMixedContentLine (s : List Char) : Bool :=
  (splitNl s).any
    (fun l => hasContent l && (leadingWs l).contains ' ' && (leadingWs l).contains '\t')

end Flux.TextEditor

namespace Flux.TextEditor

/-!
Embedding of the three re-encoding call sites that write staged bytes.
A codec maps an abstract character to its encoded bytes, or to `none`
when the character is not representable in the target encoding.
-/

/-- An encoding, as exposed by `str.encode`: per-character bytes, or
unencodable. -/
abbrev Codec := Char → Option (List Nat)

/-- Strict `str.encode(encoding)`: fails (raises `UnicodeEncodeError`) as
soon as one character is unencodable. -/
def encodeStrict (codec : Codec) : List Char → Option (List Nat)
  | [] => some []
  | c :: rest =>
    match codec c, encodeStrict codec rest with
    | some bs, some tail => some (bs ++ tail)
    | _, _ => none

/-- Lossy `str.encode(encoding, errors='replace')`: each unencodable
character becomes `?` (byte 63). -/
def encodeReplace (codec : Codec) (s : List Char) : List Nat :=
  (s.map (fun c => (codec c).getD [63])).join

/-- The write stage of the structured `text_replace` path
(src/flux_mcp/operations/text_editor.py, line 1030):
`new_content.encode(encoding, errors='replace')`. -/
def textReplaceEncode (codec : Codec) (newContent : List Char) : Option (List Nat) :=
  some (encodeReplace codec newContent)

/-- The write stage of `_regex_based_replace` (line 1313):
`new_content.encode(encoding)` with no error handler — strict. -/
def regexReplaceEncode (codec : Codec) (newContent : List Char) : Option (List Nat) :=
  encodeStrict codec newContent

/-- The write stage of `_line_based_replace` (line 1426):
`new_content.encode(encoding)` with no error handler — strict. -/
def lineRangeReplaceEncode (codec : Codec) (newContent : List Char) :
    Option (List Nat) :=
  encodeStrict codec newContent

/-- ASCII: bytes 0-127, everything else unencodable. -/
def asciiCodec : Codec := fun c => if c.toNat ≤ 127 then some [c.toNat] else none

theorem encodeStrict_eq_none_iff (codec : Codec) (s : List Char) :
    encodeStrict codec s = none ↔ ∃ c ∈ s, codec c = none := by
  induction s with
  | nil => simp [encodeStrict]
  | cons c rest ih =>
    constructor
    · intro h
      simp only [encodeStrict] at h
      rcases hc : codec c with _ | bs
      · exact ⟨c, List.mem_cons_self _ _, hc⟩
      · rw [hc] at h
        rcases hr : encodeStrict codec rest with _ | tail
        · obtain ⟨d, hd, hdc⟩ := ih.mp hr
          exact ⟨d, List.mem_cons_of_mem _ hd, hdc⟩
        · rw [hr] at h
          simp at h
    · intro h
      obtain ⟨d, hd, hdc⟩ := h
      simp only [encodeStrict]
      rcases List.mem_cons.mp hd with he | hm
      · subst he
        rw [hdc]
      · have hnone : encodeStrict codec rest = none := ih.mpr ⟨d, hm, hdc⟩
        rw [hnone]
        cases codec c <;> rfl

end Flux.TextEditor

namespace Flux.TextEditor

theorem firstContentIdx_isSome (lines : List (List Char)) (l : List Char)
    (hl : l ∈ lines) (hc : hasContent l = true) :
    ∃ fi, firstContentIdx lines = some fi := by
  induction lines with
  | nil => simp at hl
  | cons a ls ih =>
    by_cases ha : hasContent a = true
    · exact ⟨0, by simp [firstContentIdx, ha]⟩
    · rcases List.mem_cons.mp hl with he | hm
      · subst he
        exact absurd hc ha
      · obtain ⟨fi, hfi⟩ := ih hm
        refine ⟨fi + 1, ?_⟩
        simp [firstContentIdx, ha, hfi]

theorem errors_ne_nil_of_mem (f : Nat → List Char → List IndentErr)
    (l : List Char) (hf : ∀ i, f i l ≠ []) :
    ∀ (lines : List (List Char)), l ∈ lines → ∀ start,
      ((List.enumFrom start lines).map (fun p => f p.1 p.2)).join ≠ [] := by
  intro lines
  induction lines with
  | nil => intro hl; simp at hl
  | cons a ls ih =>
    intro hl start
    simp only [List.enumFrom, List.map_cons, List.join_cons]
    rcases List.mem_cons.mp hl with he | hm
    · subst he
      intro hcontra
      exact hf start (List.append_eq_nil.mp hcontra).1
    · intro hcontra
      exact ih hm (start + 1) (List.append_eq_nil.mp hcontra).2

theorem indentationErrors_ne_nil_of_mixed (s : List Char)
    (h2 : 2 ≤ (splitNl s).length) (l : List Char) (hl : l ∈ splitNl s)
    (hc : hasContent l = true)
    (hsp : (leadingWs l).contains ' ' = true)
    (htab : (leadingWs l).contains '\t' = true) :
    indentationErrors s ≠ [] := by
  obtain ⟨fi, hfi⟩ := firstContentIdx_isSome _ l hl hc
  unfold indentationErrors
  rw [if_neg (by omega)]
  rw [hfi]
  apply errors_ne_nil_of_mem _ l _ (splitNl s) hl 0
  intro i
  unfold lineErrors
  rw [if_pos hc, if_pos ⟨hsp, htab⟩]
  simp

theorem indentationErrors_ne_nil_of_bad_multiple (s : List Char)
    (h2 : 2 ≤ (splitNl s).length) (fi : Nat)
    (hfi : firstContentIdx (splitNl s) = some fi)
    (hbase : indentBaseChar (splitNl s) fi = ' ')
    (l : List Char) (hl : l ∈ splitNl s) (hc : hasContent l = true)
    (hmod : (leadingWs l).length % indentUnitOf (splitNl s) fi ≠ 0)
    (hpos : 0 < (leadingWs l).length) :
    indentationErrors s ≠ [] := by
  unfold indentationErrors
  rw [if_neg (by omega)]
  rw [hfi]
  apply errors_ne_nil_of_mem _ l _ (splitNl s) hl 0
  intro i
  unfold lineErrors
  rw [if_pos hc]
  intro hcontra
  have h3 := (List.append_eq_nil.mp hcontra).2
  rw [if_pos ⟨hbase, hmod, hpos⟩] at h3
  simp at h3

end Flux.TextEditor

namespace Flux.FuzzyRecovery

/-!
Embedding of fuzzy recovery.  `TextEditor.try_fuzzy_recovery`
(src/flux_mcp/operations/text_editor.py, lines 1107-1145) receives the
sorted similar-target list that `find_similar_targets` produced and
retries the replace through a recursive `text_replace` call, modelled
as an oracle returning the result document or `none` for a failure or
exception.  Its single live caller, the engine error handler
(src/flux_mcp/core/flux_engine.py, lines 186-190), guards the call with
`isinstance(highlight, str) and "." not in highlight` and passes
`threshold=0.85`.  (The call site inside `text_replace` itself, line
755, targets a method name that does not exist on the class and so
raises before any recovery can happen; recovery only ever fires through
the engine path.)  Similarity scores are modelled as rationals.
-/

/-- The relevant slice of the `text_replace` result document. -/
structure ResultDoc where
  success : Bool
  fuzzy_recovery : Bool
  target : String
  similarity : ℚ
deriving DecidableEq

/-- A target specifier: a plain string or a dict (whose `target` entry, if
any, is the retried name). -/
inductive Highlight
  | str (s : String)
  | dict (target : Option String)

/-- `highlight if isinstance(highlight, str) else highlight.get("target", "")`. -/
def highlightTarget : Highlight → String
  | Highlight.str s => s
  | Highlight.dict t => t.getD ""

/-- Rebuild the highlight around the recovered best match (lines 1126-1129). -/
def withTarget : Highlight → String → Highlight
  | Highlight.str _, b => Highlight.str b
  | Highlight.dict _, b => Highlight.dict (some b)

/-- `TextEditor.try_fuzzy_recovery` (lines 1107-1145). -/
def try_fuzzy_recovery (threshold : ℚ) (highlight : Highlight)
    (similar : List (String × ℚ)) (attempt : Highlight → Option ResultDoc) :
    Option ResultDoc :=
  if highlightTarget highlight = "" then none
  else
    match similar with
    | [] => none
    | (best, score) :: _ =>
      if threshold ≤ score then
        match attempt (withTarget highlight best) with
        | some res =>
          if res.success then
            some { res with target := best, similarity := score,
                            fuzzy_recovery := true }
          else none
        | none => none
      else none

/-- The engine-side guard and call (flux_engine.py lines 186-190): only a
plain undotted string highlight reaches `try_fuzzy_recovery`, and the
threshold passed is 0.85. -/
def engineFuzzyRecovery (highlight : Highlight) (similar : List (String × ℚ))
    (attempt : Highlight → Option ResultDoc) : Option ResultDoc :=
  match highlight with
  | Highlight.str s =>
    if s.toList.contains '.' = false then
      try_fuzzy_recovery (85 / 100) (Highlight.str s) similar attempt
    else none
  | Highlight.dict _ => none

end Flux.FuzzyRecovery

namespace Flux.PythonParser

/-!
Embedding of `PythonParser._find_class_or_function_by_string`
(src/flux_mcp/parsers/python_parser.py, lines 525-600): the line-scanner
fallback used when the file does not parse.  It cleans a misformatted
name, scans `content.splitlines()` for a matching `class`/`def` header,
and extends the block to the first subsequent non-blank line whose
indentation does not exceed the header's, accumulating byte positions
as `len(line) + 1` per line.
-/

/-- `line.strip()`: drop leading and trailing whitespace. -/
def stripBoth (l : List Char) : List Char :=
  ((l.dropWhile Flux.isWsChar).reverse.dropWhile Flux.isWsChar).reverse

/-- The name cleaning of lines 529-542: drop a `class `/`def ` prefix, a
trailing colon, and anything from the first parenthesis on. -/
def cleanName (name : List Char) : List Char :=
  let a1 :=
    if ("class ".toList).isPrefixOf name then stripBoth (name.drop 6)
    else if ("def ".toList).isPrefixOf name then stripBoth (name.drop 4)
    else name
  let a2 := if a1.getLast? = some ':' then stripBoth a1.dropLast else a1
  if a2.contains '(' then stripBoth (a2.takeWhile (fun c => c ≠ '(')) else a2

/-- `is_class_match` (lines 552-556) on the stripped line. -/
def isClassMatch (stripped name : List Char) : Bool :=
  (("class ".toList ++ name).isPrefixOf stripped)
    && (stripped.length = name.length + 6
        || (name.length + 6 < stripped.length
            && (stripped.getD (name.length + 6) ' ' = '('
                || stripped.getD (name.length + 6) ' ' = ':')))

/-- `is_func_match` (lines 558-562) on the stripped line. -/
def isFuncMatch (stripped name : List Char) : Bool :=
  (("def ".toList ++ name).isPrefixOf stripped)
    && (stripped.length = name.length + 4
        || (name.length + 4 < stripped.length
            && (stripped.getD (name.length + 4) ' ' = '('
                || stripped.getD (name.length + 4) ' ' = ':')))

/-- Matching header line: class or function form. -/
def matchesTarget (stripped name : List Char) : Bool :=
  isClassMatch stripped name || isFuncMatch stripped name

/-- Sum of `len(line) + 1` over a run of lines: the byte span the scanner
attributes to them (one `+1` per line, even for a final line that has no
newline byte in the file). -/
def sumLen1 (ls : List (List Char)) : Nat :=
  (ls.map (fun l => l.length + 1)).sum

/-- The block-extent loop (lines 568-576): number of subsequent lines that
belong to the block — lines are consumed while blank or indented deeper
than the header. -/
def scanBlock (indentLen : Nat) : List (List Char) → Nat
  | [] => 0
  | l :: ls =>
    if Flux.hasContent l ∧ (Flux.leadingWs l).length ≤ indentLen then 0
    else 1 + scanBlock indentLen ls

/-- The scan loop (lines 544-587): walk the lines with the running
`current_pos`; on the first header match return
`(start_pos, end_pos, indent)`. -/
def findFrom (name : List Char) : List (List Char) → Nat → Option (Nat × Nat × List Char)
  | [], _ => none
  | l :: ls, pos =>
    if matchesTarget (stripBoth l) name then
      let ind := Flux.leadingWs l
      let m := scanBlock ind.length ls
      some (pos, pos + (l.length + 1) + sumLen1 (ls.take m), ind)
    else findFrom name ls (pos + (l.length + 1))

/-- `PythonParser._find_class_or_function_by_string`: clean the name, then
scan; `none` models the final `ValueError`. -/
def find_class_or_function_by_string (content : List Char) (name : List Char) :
    Option (Nat × Nat × List Char) :=
  findFrom (cleanName name) (Flux.splitNl content) 0

theorem sumLen1_cons (l : List Char) (ls : List (List Char)) :
    sumLen1 (l :: ls) = (l.length + 1) + sumLen1 ls := by
  simp [sumLen1]

theorem sumLen1_take_le (ls : List (List Char)) (m : Nat) :
    sumLen1 (ls.take m) ≤ sumLen1 ls := by
  have h := List.sum_take_add_sum_drop ((ls.map (fun l => l.length + 1))) m
  have h2 : (ls.map (fun l => l.length + 1)).take m
      = (ls.take m).map (fun l => l.length + 1) := by
    rw [List.map_take]
  simp only [sumLen1, ← h2]
  omega

theorem findFrom_spec (name : List Char) (lines : List (List Char)) :
    ∀ (pos s e : Nat) (ind : List Char),
      findFrom name lines pos = some (s, e, ind) →
      pos ≤ s ∧ s ≤ e ∧ e ≤ pos + sumLen1 lines
      ∧ ∃ i, i < lines.length ∧ s = pos + sumLen1 (lines.take i)
          ∧ ind = Flux.leadingWs (lines.getD i []) := by
  induction lines with
  | nil => intro pos s e ind h; simp [findFrom] at h
  | cons l ls ih =>
    intro pos s e ind h
    simp only [findFrom] at h
    split at h
    · simp only [Option.some_inj, Prod.mk.injEq] at h
      obtain ⟨hs, he, hind⟩ := h
      subst hs
      subst he
      refine ⟨le_refl _, by omega, ?_, 0, by simp, by simp [sumLen1], by simp [hind]⟩
      have := sumLen1_take_le ls (scanBlock (Flux.leadingWs l).length ls)
      rw [sumLen1_cons]
      omega
    · obtain ⟨h1, h2, h3, i, hi, hs, hind⟩ := ih (pos + (l.length + 1)) s e ind h
      refine ⟨by omega, h2, ?_, i + 1, ?_, ?_, ?_⟩
      · rw [sumLen1_cons]
        omega
      · simp only [List.length_cons]
        omega
      · rw [List.take_succ_cons, sumLen1_cons]
        omega
      · simpa using hind

theorem sumLen1_eq (ls : List (List Char)) :
    sumLen1 ls = (ls.map List.length).sum + ls.length := by
  induction ls with
  | nil => rfl
  | cons l t ih =>
    simp only [sumLen1, List.map_cons, List.sum_cons, List.length_cons] at ih ⊢
    omega

theorem findByString_bounds (content name : List Char) (s e : Nat) (ind : List Char)
    (h : find_class_or_function_by_string content name = some (s, e, ind)) :
    s ≤ e ∧ e ≤ content.length + 1
    ∧ (content.getLast? = some '\n' → e ≤ content.length)
    ∧ ∃ i, i < (Flux.splitNl content).length
        ∧ s = sumLen1 ((Flux.splitNl content).take i)
        ∧ ∃ tail, (Flux.splitNl content).getD i [] = ind ++ tail := by
  obtain ⟨h1, h2, h3, i, hi, hs, hind⟩ :=
    findFrom_spec (cleanName name) (Flux.splitNl content) 0 s e ind h
  have hlen := Flux.length_eq_sum_splitNl content
  have hcnt := Flux.splitNl_length_le content
  have hsum := sumLen1_eq (Flux.splitNl content)
  refine ⟨h2, by omega, ?_, i, hi, by omega, ?_⟩
  · intro hnl
    have := Flux.countNl_eq_splitNl_length_of_last_nl content hnl
    omega
  · refine ⟨Flux.stripLeft ((Flux.splitNl content).getD i []), ?_⟩
    rw [hind]
    rw [Flux.leadingWs_append_stripLeft]

end Flux.PythonParser

namespace Flux.TransactionManager

/-- A transaction table holding one finished (committed) transaction on
file `a`, plus an empty filesystem: the witness state for terminal-state
behaviour. -/
def terminalTMState : TMState :=
  TMState.mk
    [("t", Txn.mk [(FsPath.target "a", [7])]
      [(FsPath.target "a", FsPath.temp "a")] true false)]
    (fun _ => none)

/-- A manager with no transactions at all. -/
def emptyTMState : TMState := TMState.mk [] (fun _ => none)

end Flux.TransactionManager

namespace Flux.Claims

open Flux.TransactionManager
open Flux.MemoryManager
open Flux.TextEditor
open Flux.FuzzyRecovery
open Flux.SearchEngine
open Flux.PythonParser

/-- C1 (amended): for every replace on a file that is aborted after the
transaction begins — any number of temp-file stagings followed by
`rollback` — the target file ends with its pre-image written back when
the pre-call content was non-empty; but a file whose pre-call bytes were
empty, or which did not exist, is absent after the rollback, because
`rollback` tests the captured pre-image for truthiness and empty bytes
are falsy. -/
theorem claim_c1_rollback_restores (pre : Option Bytes) (writes : List Bytes) :
    (abortedReplace pre writes).map (fun st => st.fs (FsPath.target "a"))
      = Except.ok (match pre with
          | some (b :: bs) => some (b :: bs)
          | _ => none) :=
  abortedReplace_spec pre writes

/-- C1 counterexample: a pre-existing EMPTY file is deleted by rollback
instead of being restored, so the post-call state differs from the
pre-call state. -/
theorem claim_c1_empty_file_unlinked :
    (abortedReplace (some []) []).map (fun st => st.fs (FsPath.target "a"))
      = Except.ok none
    ∧ (some ([] : Bytes)) ≠ (none : Option Bytes) :=
  ⟨rfl, by simp⟩

/-- C2 (amended): on a transaction in a terminal state, `acquire_file_lock`,
`commit` and `rollback` fail with the transaction-finished error (and,
being errors, leave every state untouched); but `write_to_temp` performs
no terminal-state check — with a staged path it succeeds and rewrites
the temp file even after commit or rollback.  Every operation on an
unknown transaction id fails with the unknown-transaction error. -/
theorem claim_c2_terminal_operations (st : TMState) (tid p : String) (content : Bytes) :
    (∀ t, findTxn tid st.transactions = some t →
      (t.is_committed || t.is_rolled_back) = true →
        acquire_file_lock tid p st = Except.error TxError.transactionFinished
        ∧ commit tid st = Except.error TxError.transactionFinished
        ∧ rollback tid st = Except.error TxError.transactionFinished
        ∧ ∀ tp, getAssoc (FsPath.target p) t.temp_files = some tp →
            write_to_temp tid p content st
              = Except.ok { st with fs := upd st.fs tp (some content) })
    ∧ (findTxn tid st.transactions = none →
        acquire_file_lock tid p st = Except.error TxError.unknownTransaction
        ∧ write_to_temp tid p content st = Except.error TxError.unknownTransaction
        ∧ commit tid st = Except.error TxError.unknownTransaction
        ∧ rollback tid st = Except.error TxError.unknownTransaction) := by
  constructor
  · intro t ht hterm
    refine ⟨?_, ?_, ?_, ?_⟩
    · simp only [acquire_file_lock, ht]
      rw [if_pos hterm]
    · simp only [commit, ht]
      rw [if_pos hterm]
    · simp only [rollback, ht]
      rw [if_pos hterm]
    · intro tp htp
      simp only [write_to_temp, ht, htp]
  · intro hn
    refine ⟨?_, ?_, ?_, ?_⟩ <;>
      simp only [acquire_file_lock, write_to_temp, commit, rollback, hn]

/-- Witness for C2: concrete terminal and unknown-id states. -/
theorem claim_c2_witness :
    acquire_file_lock "t" "a" terminalTMState
      = Except.error TxError.transactionFinished
    ∧ commit "t" terminalTMState = Except.error TxError.transactionFinished
    ∧ rollback "t" terminalTMState = Except.error TxError.transactionFinished
    ∧ write_to_temp "t" "a" [1] terminalTMState
      = Except.ok { terminalTMState with
          fs := upd terminalTMState.fs (FsPath.temp "a") (some [1]) }
    ∧ commit "t" emptyTMState = Except.error TxError.unknownTransaction := by
  have h := claim_c2_terminal_operations terminalTMState "t" "a" [1]
  have h2 := claim_c2_terminal_operations emptyTMState "t" "a" [1]
  have ht := h.1 (Txn.mk [(FsPath.target "a", [7])]
    [(FsPath.target "a", FsPath.temp "a")] true false) rfl rfl
  exact ⟨ht.1, ht.2.1, ht.2.2.1, ht.2.2.2 (FsPath.temp "a") rfl, (h2.2 rfl).2.2.1⟩

/-- C2 counterexample: after a successful commit the transaction is
terminal, yet `write_to_temp` succeeds — no transaction-finished error —
and recreates the temp file the commit had consumed, changing the
filesystem. -/
theorem claim_c2_write_after_commit :
    writeAfterCommit.map (fun st => st.fs (FsPath.temp "a"))
      = Except.ok (some [1])
    ∧ committedReplace.map (fun st => st.fs (FsPath.temp "a")) = Except.ok none :=
  ⟨rfl, rfl⟩

/-- C6 (amended): only the structured `text_replace` path re-encodes with
`errors='replace'` (lossy, never failing); the `pattern` and
`line_range` paths encode strictly, and fail exactly when the new
content holds a character the file encoding cannot represent. -/
theorem claim_c6_encode_paths (codec : Codec) (content : List Char) :
    textReplaceEncode codec content = some (encodeReplace codec content)
    ∧ (regexReplaceEncode codec content = none ↔ ∃ c ∈ content, codec c = none)
    ∧ (lineRangeReplaceEncode codec content = none ↔ ∃ c ∈ content, codec c = none) :=
  ⟨rfl, encodeStrict_eq_none_iff codec content, encodeStrict_eq_none_iff codec content⟩

/-- C6 counterexample: one non-ASCII character makes the regex and
line-range write stages raise (strict encode fails) while the structured
path degrades it to `?`. -/
theorem claim_c6_strict_encode_raises :
    regexReplaceEncode asciiCodec [Char.ofNat 233] = none
    ∧ lineRangeReplaceEncode asciiCodec [Char.ofNat 233] = none
    ∧ textReplaceEncode asciiCodec [Char.ofNat 233] = some [63] := by
  decide

/-- C7 (amended): after any operation sequence in which every inserted
value fits the ceiling by itself, the sum of held sizes stays within the
ceiling, and eviction always removes a prefix of the queue — the
least-recently-used entries first.  (A single oversize value defeats the
bound: the loop stops on the emptied cache and inserts it anyway.) -/
theorem claim_c7_cache_bound :
    (∀ (cap : Nat) (ops : List CacheOp),
        (∀ k v, CacheOp.put k v ∈ ops → v.length ≤ cap) →
        totalBytes (runOps cap ops emptyCache).entries ≤ cap)
    ∧ (∀ (cap vlen : Nat) (entries : List Entry) (sz : Nat),
        ∃ m, (evict cap vlen entries sz).1 = entries.drop m) := by
  constructor
  · intro cap ops hops
    exact runOps_bound cap ops emptyCache rfl (by simp [totalBytes, emptyCache]) hops
  · intro cap vlen entries sz
    exact evict_drops_oldest cap vlen entries sz

/-- Witness for C7: a concrete in-bounds operation sequence. -/
theorem claim_c7_witness :
    totalBytes (runOps 2
      [CacheOp.put "k" [0], CacheOp.get "k", CacheOp.put "j" [0, 0]]
      emptyCache).entries ≤ 2 := by
  apply claim_c7_cache_bound.1 2
  intro k v hv
  simp only [List.mem_cons, List.not_mem_nil, or_false] at hv
  rcases hv with h | h | h
  · cases h; decide
  · cases h
  · cases h; decide

/-- C7 counterexample: putting a single value larger than the ceiling
leaves the cache holding more bytes than the ceiling allows. -/
theorem claim_c7_oversize_value_exceeds_cap :
    ¬ totalBytes (runOps 1 [CacheOp.put "k" [0, 0]] emptyCache).entries ≤ 1 := by
  decide

end Flux.Claims

namespace Flux.Claims

open Flux.TransactionManager
open Flux.MemoryManager
open Flux.TextEditor
open Flux.FuzzyRecovery
open Flux.SearchEngine
open Flux.PythonParser

/-- C3: fuzzy recovery fires only for a plain undotted string highlight
with best similarity at least 0.85 (the engine guard plus the threshold
comparison inside `try_fuzzy_recovery`), and every result a successful
fuzzy-recovered replace returns is flagged `fuzzy_recovery = true`. -/
theorem claim_c3_fuzzy_guard :
    (∀ (highlight : Highlight) (similar : List (String × ℚ))
        (attempt : Highlight → Option ResultDoc) (r : ResultDoc),
        engineFuzzyRecovery highlight similar attempt = some r →
        (∃ s, highlight = Highlight.str s ∧ s.toList.contains '.' = false)
        ∧ ∃ best score rest, similar = (best, score) :: rest
            ∧ (85 : ℚ) / 100 ≤ score)
    ∧ (∀ (threshold : ℚ) (highlight : Highlight) (similar : List (String × ℚ))
        (attempt : Highlight → Option ResultDoc) (r : ResultDoc),
        try_fuzzy_recovery threshold highlight similar attempt = some r →
        r.fuzzy_recovery = true ∧ r.success = true) := by
  constructor
  · intro highlight similar attempt r h
    cases highlight with
    | dict t => simp [engineFuzzyRecovery] at h
    | str s =>
      simp only [engineFuzzyRecovery] at h
      by_cases hdot : s.toList.contains '.' = false
      · rw [if_pos hdot] at h
        refine ⟨⟨s, rfl, hdot⟩, ?_⟩
        rcases similar with _ | ⟨⟨best, score⟩, rest⟩
        · unfold try_fuzzy_recovery at h
          split at h <;> simp at h
        · unfold try_fuzzy_recovery at h
          split at h
          · simp at h
          · dsimp only at h
            by_cases hsc : (85 : ℚ) / 100 ≤ score
            · exact ⟨best, score, rest, rfl, hsc⟩
            · rw [if_neg hsc] at h
              simp at h
      · rw [if_neg hdot] at h
        simp at h
  · intro threshold highlight similar attempt r h
    unfold try_fuzzy_recovery at h
    split at h
    · simp at h
    · rcases similar with _ | ⟨⟨best, score⟩, rest⟩
      · simp at h
      · dsimp only at h
        by_cases hth : threshold ≤ score
        · rw [if_pos hth] at h
          rcases hat : attempt (withTarget highlight best) with _ | res
          · rw [hat] at h
            simp at h
          · rw [hat] at h
            dsimp only at h
            by_cases hsucc : res.success = true
            · rw [if_pos hsucc] at h
              have hr := Option.some_inj.mp h
              rw [← hr]
              exact ⟨rfl, hsucc⟩
            · rw [if_neg hsucc] at h
              simp at h
        · rw [if_neg hth] at h
          simp at h

/-- Witness for C3: a misspelled undotted name recovered against a
best-scoring candidate at similarity 0.9. -/
theorem claim_c3_witness :
    ((∃ s, Highlight.str "Calulator" = Highlight.str s
        ∧ s.toList.contains '.' = false)
      ∧ ∃ best score rest,
          ([("Calculator", (9 : ℚ) / 10)] : List (String × ℚ))
            = (best, score) :: rest ∧ (85 : ℚ) / 100 ≤ score)
    ∧ ((ResultDoc.mk true true "Calculator" ((9 : ℚ) / 10)).fuzzy_recovery = true
        ∧ (ResultDoc.mk true true "Calculator" ((9 : ℚ) / 10)).success = true) := by
  constructor
  · exact claim_c3_fuzzy_guard.1 (Highlight.str "Calulator")
      [("Calculator", (9 : ℚ) / 10)]
      (fun _ => some (ResultDoc.mk true false "" 0))
      (ResultDoc.mk true true "Calculator" ((9 : ℚ) / 10))
      (by
        norm_num [engineFuzzyRecovery, try_fuzzy_recovery, highlightTarget,
          withTarget]
        exact ⟨by decide, fun h => absurd h (by decide)⟩)
  · exact claim_c3_fuzzy_guard.2 ((85 : ℚ) / 100) (Highlight.str "Calulator")
      [("Calculator", (9 : ℚ) / 10)]
      (fun _ => some (ResultDoc.mk true false "" 0))
      (ResultDoc.mk true true "Calculator" ((9 : ℚ) / 10))
      (by
        norm_num [try_fuzzy_recovery, highlightTarget, withTarget]
        exact fun h => absurd h (by decide))

end Flux.Claims

namespace Flux.Claims

open Flux.TransactionManager
open Flux.MemoryManager
open Flux.TextEditor
open Flux.FuzzyRecovery
open Flux.SearchEngine
open Flux.PythonParser

/-- C4 (amended): whenever the string-scanner target finder succeeds, the
result satisfies `start_pos ≤ end_pos ≤ len(content) + 1`, with
`end_pos ≤ len(content)` whenever the text ends in a newline; the
returned indentation is the leading whitespace — a prefix — of the line
at which `start_pos` begins.  (The unamended bound `end_pos ≤
len(content)` fails by exactly one when the resolved block is the last
block of a file whose text does not end with a newline, because every
line contributes `len(line) + 1` bytes, the missing final newline
included.) -/
theorem claim_c4_scanner_result_bounds (content name : List Char)
    (s e : Nat) (ind : List Char)
    (h : find_class_or_function_by_string content name = some (s, e, ind)) :
    s ≤ e ∧ e ≤ content.length + 1
    ∧ (content.getLast? = some '\n' → e ≤ content.length)
    ∧ ∃ i, i < (Flux.splitNl content).length
        ∧ s = sumLen1 ((Flux.splitNl content).take i)
        ∧ ∃ tail, (Flux.splitNl content).getD i [] = ind ++ tail :=
  findByString_bounds content name s e ind h

/-- Witness for C4: a resolved function in a newline-terminated file. -/
theorem claim_c4_witness :
    (0 : Nat) ≤ 18 ∧ 18 ≤ ("def f():\n    pass\n".toList).length + 1
    ∧ (("def f():\n    pass\n".toList).getLast? = some '\n' →
        18 ≤ ("def f():\n    pass\n".toList).length)
    ∧ ∃ i, i < (Flux.splitNl ("def f():\n    pass\n".toList)).length
        ∧ 0 = sumLen1 ((Flux.splitNl ("def f():\n    pass\n".toList)).take i)
        ∧ ∃ tail, (Flux.splitNl ("def f():\n    pass\n".toList)).getD i []
            = [] ++ tail :=
  claim_c4_scanner_result_bounds ("def f():\n    pass\n".toList) ("f".toList)
    0 18 [] (by decide)

/-- C4 counterexample: on a file whose text does not end with a newline,
the scanner returns `end_pos = len(content) + 1`, violating the claimed
invariant `end_pos ≤ len(content)` in exactly the highlighted case. -/
theorem claim_c4_end_pos_overflow :
    find_class_or_function_by_string ("def f():\n    pass".toList) ("f".toList)
      = some (0, 18, [])
    ∧ ("def f():\n    pass".toList).length = 17 := by
  constructor
  · decide
  · decide

/-- C5 (amended): the strict indentation validation runs only on the
structured path and only for replacements of at least two lines; within
that scope, any content line whose leading whitespace mixes a space and
a tab, and (for a space baseline) any content line whose leading
whitespace length is not a multiple of the detected unit, produces a
structured per-line error and the gate rejects the replacement before
any bytes are staged.  (Single-line replacements and the `pattern` /
`line_range` paths bypass the validation entirely.) -/
theorem claim_c5_indent_gate (s : List Char) (h2 : 2 ≤ (Flux.splitNl s).length) :
    (∀ l ∈ Flux.splitNl s, Flux.hasContent l = true →
        (Flux.leadingWs l).contains ' ' = true →
        (Flux.leadingWs l).contains '\t' = true →
        indentGatePasses s = false)
    ∧ (∀ fi, firstContentIdx (Flux.splitNl s) = some fi →
        indentBaseChar (Flux.splitNl s) fi = ' ' →
        ∀ l ∈ Flux.splitNl s, Flux.hasContent l = true →
          (Flux.leadingWs l).length % indentUnitOf (Flux.splitNl s) fi ≠ 0 →
          0 < (Flux.leadingWs l).length →
          indentGatePasses s = false) := by
  constructor
  · intro l hl hc hsp htab
    have hne := indentationErrors_ne_nil_of_mixed s h2 l hl hc hsp htab
    unfold indentGatePasses
    rcases herr : indentationErrors s with _ | ⟨x, xs⟩
    · exact absurd herr hne
    · rfl
  · intro fi hfi hbase l hl hc hmod hpos
    have hne := indentationErrors_ne_nil_of_bad_multiple s h2 fi hfi hbase
      l hl hc hmod hpos
    unfold indentGatePasses
    rcases herr : indentationErrors s with _ | ⟨x, xs⟩
    · exact absurd herr hne
    · rfl

/-- Witness for C5: a two-line replacement whose second line mixes a space
and a tab is rejected by the gate. -/
theorem claim_c5_witness :
    indentGatePasses ("def f():\n \tx".toList) = false :=
  (claim_c5_indent_gate ("def f():\n \tx".toList) (by decide)).1
    (" \tx".toList) (by decide) (by decide) (by decide) (by decide)

/-- C5 counterexample: a single-line replacement whose leading whitespace
mixes a space and a tab passes the gate — the validation is skipped for
replacements of fewer than two lines, so no per-line error is raised and
the replace proceeds to staging. -/
theorem claim_c5_single_line_mixed_passes :
    hasMixedContentLine [' ', '\t', 'x'] = true
    ∧ indentGatePasses [' ', '\t', 'x'] = true := by
  decide

/-- C8: for a file with `k` newline bytes the lazily built line index has
exactly `k + 1` entries, starts at offset `0`, every entry is at most
the file size, the line decomposition it is built against concatenates
back to the file, and `read_lines(i, i)` returns exactly line `i`
including its terminator (the terminator-less tail for the last line). -/
theorem claim_c8_line_index_correct (c : List Nat) :
    (lineIndex c).length = count10 c + 1
    ∧ (lineIndex c).get? 0 = some 0
    ∧ (∀ x ∈ lineIndex c, x ≤ c.length)
    ∧ (linesKeep c).join = c
    ∧ (∀ i, i ≤ count10 c → readLines c i i = (linesKeep c).getD i []) := by
  refine ⟨lineIndex_length c, rfl, ?_, linesKeep_join c,
    fun i hi => readLines_eq c i hi⟩
  intro x hx
  obtain ⟨n, hn⟩ := List.mem_iff_get?.mp hx
  have hlt : n < (lineIndex c).length := by
    rcases List.get?_eq_some.mp hn with ⟨hbound, _⟩
    exact hbound
  rw [lineIndex_length c] at hlt
  have hval := lineIndex_get? c n (by omega)
  rw [hn] at hval
  have hx2 : x = pieceOffsets c n := Option.some_inj.mp hval
  rw [hx2]
  exact pieceOffsets_le c n

/-- Witness for C8: the file `"a\nb"` (bytes 97 10 98). -/
theorem claim_c8_witness :
    readLines [97, 10, 98] 1 1 = (linesKeep [97, 10, 98]).getD 1 []
    ∧ (2 : Nat) ≤ ([97, 10, 98] : List Nat).length :=
  ⟨(claim_c8_line_index_correct [97, 10, 98]).2.2.2.2 1 (by decide),
    (claim_c8_line_index_correct [97, 10, 98]).2.2.1 2 (by decide)⟩

/-- C9: for non-overlapping ascending match spans (as `re.finditer`
yields) and a literal replacement, the right-to-left splice loop of the
`pattern` path produces exactly the content with every matched span
replaced, earlier offsets staying valid. -/
theorem claim_c9_regex_splice (c r : List Char) (ms : List (Nat × Nat))
    (_hne : ms ≠ []) (hs : SpansSorted c.length 0 ms) :
    applyReversed c ms r = replaceAll c ms r :=
  applyReversed_eq_replaceAll ms c r hs

/-- Witness for C9: two matches of width one in `"abcabc"`. -/
theorem claim_c9_witness :
    applyReversed ("abcabc".toList) [(0, 1), (3, 4)] ("XY".toList)
      = replaceAll ("abcabc".toList) [(0, 1), (3, 4)] ("XY".toList) :=
  claim_c9_regex_splice ("abcabc".toList) ("XY".toList) [(0, 1), (3, 4)]
    (by decide)
    (by exact ⟨by decide, by decide, by decide, by decide, by decide, by decide,
      trivial⟩)

/-- C10: the literal CPU search resumes one character past each match
START, so every occurrence position — overlapping ones included — is
reported; in particular searching `"aa"` in a line `"aaa"` yields the
two overlapping columns 0 and 1. -/
theorem claim_c10_overlapping_literal_matches :
    (∀ (line pat : List Char) (p : Nat), pat ≠ [] →
        pat.isPrefixOf (line.drop p) = true →
        p + pat.length ≤ line.length →
        p ∈ literalPositions line pat)
    ∧ literalPositions ['a', 'a', 'a'] ['a', 'a'] = [0, 1] := by
  constructor
  · intro line pat p hne hocc hlen
    have hp : p ≤ line.length := by
      have h1 : 1 ≤ pat.length := by
        cases pat with
        | nil => exact absurd rfl hne
        | cons a b => simp
      omega
    exact scanLoop_complete line pat p hocc hp (line.length + 1) 0
      (Nat.zero_le p) (by omega)
  · decide

/-- Witness for C10: the second, overlapping occurrence of `"aa"` in
`"aaa"` is reported. -/
theorem claim_c10_witness :
    (1 : Nat) ∈ literalPositions ['a', 'a', 'a'] ['a', 'a'] :=
  claim_c10_overlapping_literal_matches.1 ['a', 'a', 'a'] ['a', 'a'] 1
    (by decide) (by decide) (by decide)

end Flux.Claims
